import Mathlib

/-!
# Verification of `tensorflow_datasets/core/features/translation_feature.py`

Shallow embedding of the translation feature connectors:

* `Translation` (fixed languages per example): language-set bookkeeping and
  metadata persistence.
* `TranslationVariableLanguages`: allow-list validation, flattening of the
  per-example translation mapping and sorting of the resulting pairs, plus
  metadata persistence with lenient load.
* The language-list metadata store `_write_languages_to_file` /
  `_load_languages_from_file` (newline-joined write; split, strip, drop-empty,
  set on read).

Python strings are modelled as Lean `String`, compared through their character
lists (Python compares strings lexicographically by code point, which is the
lexicographic order on `List Char`).  Python dicts are association lists with
distinct keys (hypotheses where needed), Python sets are lists considered up to
membership (`List.dedup` at construction), and file contents are `List Char`.
A file system holding at most the one metadata file is an
`Option (List Char)`.  Fallible operations return `Except`.
-/

deriving instance DecidableEq for Except

/-- Python `<=` on strings: lexicographic by code point on the character
lists. -/
def strLe (a b : String) : Prop := a.data ≤ b.data

/-- Python `<` on strings: strict lexicographic order by code point on the
character lists. -/
def strLt (a b : String) : Prop := a.data < b.data

instance : DecidableRel strLe := fun a b => inferInstanceAs (Decidable (a.data ≤ b.data))

instance : DecidableRel strLt := fun a b => inferInstanceAs (Decidable (a.data < b.data))

instance : IsTotal String strLe where
  total a b := le_total a.data b.data

instance : IsTrans String strLe where
  trans _ _ _ hab hbc := le_trans hab hbc

/-- A value of the input mapping for `TranslationVariableLanguages.encode_example`:
either a single translation string or a collection of translation strings
(the Python code distinguishes the two with `isinstance(t, six.string_types)`). -/
inductive TransValue where
  | single (t : String)
  | multi (ts : List String)
deriving DecidableEq

/-- Errors that `encode_example` can raise:
`validationError` models the `ValueError` raised by the allow-list check, and
`unpackError` models the `ValueError` raised by
`languages, translations = zip(*sorted(translation_tuples))` when there are no
tuples to unpack (`zip()` of nothing yields zero items, not two). -/
inductive EncodeError where
  | validationError (msg : String)
  | unpackError
deriving DecidableEq

/-- Ascending sort of a list of strings, modelling Python `sorted` on `str`. -/
def sortStr (l : List String) : List String :=
  List.insertionSort strLe l

/-- The order Python uses on the flattened `(language, translation)` tuples:
lexicographic on the pair. -/
def pairLe (a b : String × String) : Prop :=
  strLt a.1 b.1 ∨ (a.1 = b.1 ∧ strLe a.2 b.2)

instance : DecidableRel pairLe := fun a b =>
  inferInstanceAs (Decidable (strLt a.1 b.1 ∨ (a.1 = b.1 ∧ strLe a.2 b.2)))

instance : IsTotal (String × String) pairLe where
  total a b := by
    rcases lt_trichotomy a.1.data b.1.data with h | h | h
    · exact Or.inl (Or.inl h)
    · rcases le_total a.2.data b.2.data with h2 | h2
      · exact Or.inl (Or.inr ⟨congrArg String.mk h, h2⟩)
      · exact Or.inr (Or.inr ⟨congrArg String.mk h.symm, h2⟩)
    · exact Or.inr (Or.inl h)

instance : IsTrans (String × String) pairLe where
  trans a b c hab hbc := by
    rcases hab with hab | ⟨hab, hab2⟩
    · rcases hbc with hbc | ⟨hbc, _⟩
      · exact Or.inl (lt_trans (α := List Char) hab hbc)
      · exact Or.inl (hbc ▸ hab)
    · rcases hbc with hbc | ⟨hbc, hbc2⟩
      · exact Or.inl (hab ▸ hbc)
      · exact Or.inr ⟨hab.trans hbc, le_trans (α := List Char) hab2 hbc2⟩

/-- Sort of the flattened tuples, modelling Python `sorted(translation_tuples)`. -/
def sortPairs (l : List (String × String)) : List (String × String) :=
  List.insertionSort pairLe l

/-- The flattening loop of `encode_example`: each `(language, value)` item of
the mapping contributes one tuple when the value is a single string, and one
tuple per element (sharing the language code) when it is a collection. -/
def translationTuples : List (String × TransValue) → List (String × String)
  | [] => []
  | (l, .single t) :: rest => (l, t) :: translationTuples rest
  | (l, .multi ts) :: rest => ts.map (fun u => (l, u)) ++ translationTuples rest

/-- The pairs a single mapping item `(k, v)` contributes to the flattened
tuple list: one pair for a single string, one pair per element for a
collection. -/
def expectedPairs (k : String) : TransValue → List (String × String)
  | .single t => [(k, t)]
  | .multi ts => ts.map (fun u => (k, u))

/-- The number of pairs a single mapping item contributes: one for a single
string, the collection length for a collection. -/
def pairCount : TransValue → Nat
  | .single _ => 1
  | .multi ts => ts.length

/-- The `ValueError` message of the allow-list check:
`"Some languages in example ({0}) are not in valid set ({1})."` formatted with
the comma-joined offending codes and the comma-joined valid set. -/
def validMessage (offending valid : List String) : String :=
  "Some languages in example (" ++ String.intercalate ", " offending ++
    ") are not in valid set (" ++ String.intercalate ", " valid ++ ")."

/-- State of a `TranslationVariableLanguages` feature: the optional language
allow-list `self._languages` (`none` models Python `None`; a list models the
Python set up to membership). -/
structure TranslationVariableLanguages where
  _languages : Option (List String)
deriving DecidableEq

namespace TranslationVariableLanguages

/-- Python `__init__`: `self._languages = set(languages) if languages else None`
(an absent or empty argument both yield `None`). -/
def init (languages : Option (List String)) : TranslationVariableLanguages :=
  ⟨match languages with
    | none => none
    | some l => if l = [] then none else some l.dedup⟩

/-- The `num_languages` property:
`len(self._languages) if self._languages else None` (an empty set is falsy). -/
def num_languages (t : TranslationVariableLanguages) : Option Nat :=
  match t._languages with
  | none => none
  | some s => if s = [] then none else some s.length

/-- The `languages` property:
`sorted(list(self._languages)) if self._languages else None`. -/
def languages (t : TranslationVariableLanguages) : Option (List String) :=
  match t._languages with
  | none => none
  | some s => if s = [] then none else some (sortStr s)

/-- Tail of `encode_example` after the allow-list check: flatten the mapping
into tuples, sort them, and unpack `zip(*sorted(translation_tuples))` into the
`language` and `translation` sequences.  When there are no tuples the unpacking
of the empty `zip` raises a `ValueError`. -/
def encodeTuples (translation_dict : List (String × TransValue)) :
    Except EncodeError (List String × List String) :=
  if sortPairs (translationTuples translation_dict) = [] then .error .unpackError
  else .ok ((sortPairs (translationTuples translation_dict)).map Prod.fst,
            (sortPairs (translationTuples translation_dict)).map Prod.snd)

/-- The Python expression `set(translation_dict) - self._languages`: the keys
of the input mapping (as a set) that are not in the allow-list set. -/
def setDiffKeys (t : TranslationVariableLanguages)
    (translation_dict : List (String × TransValue)) : List String :=
  ((translation_dict.map Prod.fst).dedup).filter
    (fun k => decide (k ∉ t._languages.getD []))

/-- Method `encode_example`: raise a `ValueError` when an allow-list is set
(`self.languages` is truthy) and `set(translation_dict) - self._languages` is
non-empty, listing the sorted offending codes and the sorted valid set;
otherwise flatten, sort and unpack. -/
def encode_example (t : TranslationVariableLanguages)
    (translation_dict : List (String × TransValue)) :
    Except EncodeError (List String × List String) :=
  match t.languages with
  | some valid =>
      if setDiffKeys t translation_dict = [] then encodeTuples translation_dict
      else .error (.validationError
        (validMessage (sortStr (setDiffKeys t translation_dict)) valid))
  | none => encodeTuples translation_dict

/-- Discriminator for the allow-list `ValueError` among the results of
`encode_example`. -/
def isValidationError {α : Type} : Except EncodeError α → Bool
  | .error (.validationError _) => true
  | _ => false

end TranslationVariableLanguages

/-- Whitespace as recognized by Python `str.strip()`: the characters for
which CPython `str.isspace()` holds, namely U+0009 to U+000D, U+001C to
U+001F, the space, U+0085 (next line), U+00A0 (no-break space), U+1680
(ogham space mark), U+2000 to U+200A (typographic spaces), U+2028 (line
separator), U+2029 (paragraph separator), U+202F (narrow no-break space),
U+205F (medium mathematical space) and U+3000 (ideographic space). -/
def wsChar (c : Char) : Bool :=
  ('\x09' ≤ c && c ≤ '\x0d') || ('\x1c' ≤ c && c ≤ '\x1f') || c = ' '
    || c = '\u0085' || c = '\u00a0' || c = '\u1680'
    || ('\u2000' ≤ c && c ≤ '\u200a') || c = '\u2028' || c = '\u2029'
    || c = '\u202f' || c = '\u205f' || c = '\u3000'

/-- Python `str.strip()`: remove leading and trailing whitespace from a
character list. -/
def stripChars (l : List Char) : List Char :=
  ((l.dropWhile wsChar).reverse.dropWhile wsChar).reverse

/-- Python `str.split("\n")`: split a character list at every newline; always
returns at least one (possibly empty) piece. -/
def splitNL : List Char → List (List Char)
  | [] => [[]]
  | c :: cs =>
    if c = '\n' then [] :: splitNL cs
    else
      match splitNL cs with
      | [] => [[c]]
      | r :: rs => (c :: r) :: rs

/-- Python `"\n".join(pieces)`. -/
def joinNL : List (List Char) → List Char
  | [] => []
  | [x] => x
  | x :: xs => x ++ '\n' :: joinNL xs

/-- Helper `_write_languages_to_file`: the file receives
`"\n".join(languages) + "\n"`.  The argument list is an enumeration of the
Python set of languages. -/
def _write_languages_to_file (languages : List String) : List Char :=
  joinNL (languages.map String.data) ++ ['\n']

/-- Helper `_load_languages_from_file`: split the file content on newlines, strip
each piece, drop the pieces that strip to empty, and collect the result as a
set (`List.dedup` models the set construction). -/
def _load_languages_from_file (content : List Char) : List String :=
  (((splitNL content).map (fun t => String.mk (stripChars t))).filter
    (fun s => decide (s ≠ ""))).dedup

/-- The error raised by the file-system abstraction on a missing file. -/
inductive IOErr where
  | notFound
deriving DecidableEq

/-- Modelled from the spec: the file-system abstraction behind
`tf.io.gfile.GFile` (an external collaborator, not part of the source file) is
a store holding at most the one metadata file, and opening a missing file for
read raises an I/O error, which propagates unchanged ("I/O error: propagated
unchanged from the underlying file-system abstraction"). -/
def gfileRead (fs : Option (List Char)) : Except IOErr (List Char) :=
  match fs with
  | none => .error .notFound
  | some c => .ok c

/-- Membership equality of two lists viewed as sets. -/
def setEqStr (a b : List String) : Prop := ∀ x : String, x ∈ a ↔ x ∈ b

/-- State of a `Translation` (fixed languages) feature: `self._languages`
(a list modelling the Python set up to membership), and the set of per-language
text sub-field keys of the composed `FeaturesDict`.  The key set is modelled
from the spec: the composed schema is a fixed-key record whose keys are set by
the dict passed at construction and never change afterwards ("the base
feature-schema composition mechanism" is an external collaborator whose
`load_metadata` "recursively delegate[s] to children"). -/
structure Translation where
  _languages : List String
  subKeys : List String
deriving DecidableEq

namespace Translation

/-- Python `__init__`: `self._languages = set(languages)` and
`super().__init__({l: Text(...) for l in languages})`, so the sub-field keys
are the distinct language codes. -/
def init (languages : List String) : Translation :=
  ⟨languages.dedup, languages.dedup⟩

/-- The `languages` property: `sorted(self._languages)`. -/
def languages (t : Translation) : List String :=
  sortStr t._languages

/-- Method `save_metadata`: write the language set to the metadata file and delegate
to the underlying schema (which leaves this state unchanged).  Returns the
written file content together with the unchanged state. -/
def save_metadata (t : Translation) : List Char × Translation :=
  (_write_languages_to_file t._languages, t)

/-- Method `load_metadata`: read the language set from the metadata file
(propagating the I/O error when the file is missing — there is no existence
check), overwrite `self._languages` with it, and delegate to the underlying
schema, which does not change the sub-field keys. -/
def load_metadata (t : Translation) (fs : Option (List Char)) :
    Except IOErr Translation :=
  match gfileRead fs with
  | .error e => .error e
  | .ok c => .ok { t with _languages := _load_languages_from_file c }

/-- The invariant of claim C5: the set of languages equals the set of
per-language sub-field keys. -/
def invariant (t : Translation) : Prop :=
  setEqStr t._languages t.subKeys

end Translation

namespace TranslationVariableLanguages

/-- Method `save_metadata`: the write is skipped entirely when `self.languages` is
falsy; otherwise the set `self._languages` is written to the metadata file.
Returns the written file content, or `none` when nothing is written. -/
def save_metadata (t : TranslationVariableLanguages) : Option (List Char) :=
  match t.languages with
  | some _ => some (_write_languages_to_file (t._languages.getD []))
  | none => none

/-- Method `load_metadata`: only when the metadata file exists
(`tf.io.gfile.exists`), overwrite `self._languages` with the set read from it;
otherwise the state is left unchanged and no error is raised. -/
def load_metadata (t : TranslationVariableLanguages) (fs : Option (List Char)) :
    TranslationVariableLanguages :=
  match fs with
  | some c => ⟨some (_load_languages_from_file c)⟩
  | none => t

end TranslationVariableLanguages

/-! ## Helper lemmas -/

theorem strExt {a b : String} (h : a.data = b.data) : a = b :=
  congrArg String.mk h

theorem strLe_of_pairLe {a b : String × String} (h : pairLe a b) : strLe a.1 b.1 := by
  rcases h with h | ⟨h, _⟩
  · exact le_of_lt (α := List Char) h
  · exact le_of_eq (congrArg String.data h)

theorem sortStr_perm (l : List String) : (sortStr l).Perm l :=
  List.perm_insertionSort strLe l

theorem mem_sortStr {l : List String} {x : String} : x ∈ sortStr l ↔ x ∈ l :=
  List.mem_insertionSort strLe

theorem sortStr_sorted (l : List String) : List.Sorted strLe (sortStr l) :=
  List.sorted_insertionSort strLe l

theorem sortStr_eq_nil {l : List String} : sortStr l = [] ↔ l = [] := by
  constructor
  · intro h
    exact ((sortStr_perm l).symm.trans (h ▸ List.Perm.refl _)).eq_nil
  · intro h
    rw [h]; rfl

theorem sortStr_nodup {l : List String} (h : l.Nodup) : (sortStr l).Nodup :=
  ((sortStr_perm l).nodup_iff).mpr h

namespace TranslationVariableLanguages

theorem isValidationError_encodeTuples (m : List (String × TransValue)) :
    isValidationError (encodeTuples m) = false := by
  unfold encodeTuples
  split <;> rfl

theorem encodeTuples_ok {m : List (String × TransValue)}
    {r : List String × List String} (h : encodeTuples m = .ok r) :
    sortPairs (translationTuples m) ≠ [] ∧
      r = ((sortPairs (translationTuples m)).map Prod.fst,
           (sortPairs (translationTuples m)).map Prod.snd) := by
  unfold encodeTuples at h
  by_cases hc : sortPairs (translationTuples m) = []
  · rw [if_pos hc] at h
    cases h
  · rw [if_neg hc] at h
    cases h
    exact ⟨hc, rfl⟩

theorem encode_example_ok {t : TranslationVariableLanguages}
    {m : List (String × TransValue)} {r : List String × List String}
    (h : t.encode_example m = .ok r) : encodeTuples m = .ok r := by
  unfold encode_example at h
  cases hl : t.languages with
  | none => rw [hl] at h; exact h
  | some valid =>
    rw [hl] at h
    have h2 : (if setDiffKeys t m = [] then encodeTuples m
        else Except.error (EncodeError.validationError
          (validMessage (sortStr (setDiffKeys t m)) valid))) = Except.ok r := h
    by_cases hd : setDiffKeys t m = []
    · rwa [if_pos hd] at h2
    · rw [if_neg hd] at h2
      cases h2

theorem encode_example_languages_none {t : TranslationVariableLanguages}
    (h : t.languages = none) (m : List (String × TransValue)) :
    t.encode_example m = encodeTuples m := by
  unfold encode_example
  rw [h]

theorem zip_map_fst_snd_pairs (ps : List (String × String)) :
    (ps.map Prod.fst).zip (ps.map Prod.snd) = ps := by
  have h := List.zip_unzip ps
  rwa [List.unzip_eq_map] at h

/-! ## Claim theorems -/

/-- C2: for every input mapping accepted by
`TranslationVariableLanguages.encode_example`, the output sequences `language`
and `translation` have equal length, the `language` sequence is non-decreasing
in ascending lexical order, and the aligned pairs are sorted by the combined
key `(language_code, translation_text)` (ties in the language code are ordered
by translation text ascending). -/
theorem claim_C2 (t : TranslationVariableLanguages)
    (m : List (String × TransValue)) (langs trans : List String)
    (h : t.encode_example m = .ok (langs, trans)) :
    langs.length = trans.length
      ∧ List.Sorted strLe langs
      ∧ List.Sorted pairLe (langs.zip trans) := by
  obtain ⟨-, hr⟩ := encodeTuples_ok (encode_example_ok h)
  obtain ⟨h1, h2⟩ := Prod.mk.injEq .. ▸ hr
  have hsorted : List.Sorted pairLe (sortPairs (translationTuples m)) :=
    List.sorted_insertionSort pairLe (translationTuples m)
  subst h1 h2
  refine ⟨by simp, ?_, ?_⟩
  · exact List.Pairwise.map Prod.fst (fun a b hab => strLe_of_pairLe hab) hsorted
  · rwa [zip_map_fst_snd_pairs]

/-- Witness for C2 at the concrete scenario of the spec: encoding
`{"en": "the cat", "fr": ["le chat", "la chatte"], "de": "die katze"}` with no
allow-list yields the aligned, sorted sequences, which satisfy the three
properties of the claim. -/
theorem claim_C2_witness :
    (TranslationVariableLanguages.init none).encode_example
        [("en", .single "the cat"), ("fr", .multi ["le chat", "la chatte"]),
         ("de", .single "die katze")]
      = .ok (["de", "en", "fr", "fr"],
             ["die katze", "the cat", "la chatte", "le chat"])
    ∧ (["de", "en", "fr", "fr"] : List String).length
        = (["die katze", "the cat", "la chatte", "le chat"] : List String).length
    ∧ List.Sorted strLe ["de", "en", "fr", "fr"]
    ∧ List.Sorted pairLe ((["de", "en", "fr", "fr"] : List String).zip
        ["die katze", "the cat", "la chatte", "le chat"]) := by
  have h : (TranslationVariableLanguages.init none).encode_example
      [("en", .single "the cat"), ("fr", .multi ["le chat", "la chatte"]),
       ("de", .single "die katze")]
      = .ok (["de", "en", "fr", "fr"],
             ["die katze", "the cat", "la chatte", "le chat"]) := by decide
  obtain ⟨h1, h2, h3⟩ := claim_C2 _ _ _ _ h
  exact ⟨h, h1, h2, h3⟩

/-- C3 counterexample: encoding the empty mapping does not produce empty
sequences; it raises the unpack `ValueError` in this module's own code
(`languages, translations = zip(*sorted([]))` has nothing to unpack). -/
theorem claim_C3_counterexample :
    (TranslationVariableLanguages.init none).encode_example [] = .error .unpackError
    ∧ (TranslationVariableLanguages.init none).encode_example [] ≠ .ok ([], []) := by
  constructor
  · decide
  · decide

/-- C3 amended: for every `TranslationVariableLanguages` instance (with or
without an allow-list), `encode_example` on the empty mapping never raises the
allow-list validation error, but it does not produce empty sequences either:
it raises the `ValueError` of unpacking `zip()` of no tuples. -/
theorem claim_C3 (t : TranslationVariableLanguages) :
    t.encode_example [] = .error .unpackError := by
  have hempty : encodeTuples ([] : List (String × TransValue)) = .error .unpackError := by decide
  unfold encode_example
  cases hl : t.languages with
  | none => exact hempty
  | some valid =>
    have hd : setDiffKeys t [] = [] := rfl
    show (if setDiffKeys t [] = [] then encodeTuples []
        else Except.error (EncodeError.validationError
          (validMessage (sortStr (setDiffKeys t [])) valid)))
      = Except.error EncodeError.unpackError
    rw [if_pos hd]
    exact hempty

theorem languages_field_init {A : List String} (hA : A ≠ []) :
    (init (some A))._languages = some A.dedup := by
  show (if A = [] then none else some A.dedup) = some A.dedup
  exact if_neg hA

theorem setDiffKeys_init {A : List String} (hA : A ≠ [])
    (m : List (String × TransValue)) :
    setDiffKeys (init (some A)) m
      = ((m.map Prod.fst).dedup).filter (fun k => decide (k ∉ A.dedup)) := by
  unfold setDiffKeys
  rw [languages_field_init hA]
  rfl

theorem languages_init {A : List String} (hA : A ≠ []) :
    (init (some A)).languages = some (sortStr A.dedup) := by
  have hdne : A.dedup ≠ [] := fun h => hA ((List.dedup_eq_nil A).mp h)
  unfold languages
  rw [languages_field_init hA]
  exact if_neg hdne

theorem setDiffKeys_eq_nil_iff {A : List String} (hA : A ≠ [])
    (m : List (String × TransValue)) :
    setDiffKeys (init (some A)) m = [] ↔ ∀ k ∈ m.map Prod.fst, k ∈ A := by
  rw [setDiffKeys_init hA, List.filter_eq_nil_iff]
  simp [List.mem_dedup]

/-- C1: for an instance built from a non-empty allow-list `A` and any input
mapping `m`, `encode_example` raises the validation `ValueError` exactly when
some key of `m` is outside `A`; the raised message is the template filled with
the ascending-sorted comma-joined set difference `keys(m) - A` and the
ascending-sorted comma-joined valid set, where each of the two joined lists is
sorted, duplicate-free, and enumerates exactly the respective set. -/
theorem claim_C1 (A : List String) (hA : A ≠ []) (m : List (String × TransValue)) :
    (isValidationError ((init (some A)).encode_example m) = true
        ↔ ∃ k ∈ m.map Prod.fst, k ∉ A)
    ∧ (∀ msg, (init (some A)).encode_example m = .error (.validationError msg) →
        msg = validMessage (sortStr (setDiffKeys (init (some A)) m)) (sortStr A.dedup))
    ∧ List.Sorted strLe (sortStr (setDiffKeys (init (some A)) m))
    ∧ (sortStr (setDiffKeys (init (some A)) m)).Nodup
    ∧ (∀ x, x ∈ sortStr (setDiffKeys (init (some A)) m) ↔ x ∈ m.map Prod.fst ∧ x ∉ A)
    ∧ List.Sorted strLe (sortStr A.dedup)
    ∧ (sortStr A.dedup).Nodup
    ∧ (∀ x, x ∈ sortStr A.dedup ↔ x ∈ A) := by
  have hmemoff : ∀ x, x ∈ sortStr (setDiffKeys (init (some A)) m)
      ↔ x ∈ m.map Prod.fst ∧ x ∉ A := by
    intro x
    rw [mem_sortStr, setDiffKeys_init hA, List.mem_filter]
    simp [List.mem_dedup]
  have hrest : List.Sorted strLe (sortStr (setDiffKeys (init (some A)) m))
      ∧ (sortStr (setDiffKeys (init (some A)) m)).Nodup
      ∧ (∀ x, x ∈ sortStr (setDiffKeys (init (some A)) m) ↔ x ∈ m.map Prod.fst ∧ x ∉ A)
      ∧ List.Sorted strLe (sortStr A.dedup)
      ∧ (sortStr A.dedup).Nodup
      ∧ (∀ x, x ∈ sortStr A.dedup ↔ x ∈ A) := by
    refine ⟨sortStr_sorted _, ?_, hmemoff, sortStr_sorted _, sortStr_nodup (List.nodup_dedup A), ?_⟩
    · rw [setDiffKeys_init hA]
      exact sortStr_nodup ((List.nodup_dedup _).filter _)
    · intro x
      rw [mem_sortStr, List.mem_dedup]
  by_cases hd : setDiffKeys (init (some A)) m = []
  · have henc : (init (some A)).encode_example m = encodeTuples m := by
      unfold encode_example
      rw [languages_init hA]
      exact if_pos hd
    have hnooff : ¬ ∃ k ∈ m.map Prod.fst, k ∉ A := by
      rw [not_exists]
      intro k
      rw [not_and]
      intro hk
      simpa using (setDiffKeys_eq_nil_iff hA m).mp hd k hk
    refine ⟨?_, ?_, hrest⟩
    · rw [henc, isValidationError_encodeTuples]
      exact iff_of_false (by simp) hnooff
    · intro msg hmsg
      rw [henc] at hmsg
      have hval := isValidationError_encodeTuples m
      rw [hmsg] at hval
      simp [isValidationError] at hval
  · have henc : (init (some A)).encode_example m
        = .error (.validationError
            (validMessage (sortStr (setDiffKeys (init (some A)) m)) (sortStr A.dedup))) := by
      unfold encode_example
      rw [languages_init hA]
      exact if_neg hd
    have hoff : ∃ k ∈ m.map Prod.fst, k ∉ A := by
      by_contra hno
      refine hd ((setDiffKeys_eq_nil_iff hA m).mpr ?_)
      intro k hk
      by_contra hkA
      exact hno ⟨k, hk, hkA⟩
    refine ⟨?_, ?_, hrest⟩
    · rw [henc]
      simpa [isValidationError] using hoff
    · intro msg hmsg
      rw [henc] at hmsg
      injection hmsg with h1
      injection h1 with h2
      exact h2.symm

/-- Witness for C1 at the concrete scenario of the spec: with allow-list
`["en", "fr"]`, encoding `{"en": "x", "de": "y"}` raises the validation
error. -/
theorem claim_C1_witness :
    isValidationError ((init (some ["en", "fr"])).encode_example
      [("en", .single "x"), ("de", .single "y")]) = true :=
  ((claim_C1 ["en", "fr"] (by decide)
    [("en", .single "x"), ("de", .single "y")]).1).mpr ⟨"de", by decide, by decide⟩

/-- C9: with no allow-list set, `save_metadata` writes no languages file; and
for every instance, `load_metadata` against a path whose languages file does
not exist raises no error and leaves the state (hence the allow-list)
unchanged. -/
theorem claim_C9 (t : TranslationVariableLanguages) :
    (t.languages = none → t.save_metadata = none) ∧ t.load_metadata none = t := by
  constructor
  · intro h
    unfold save_metadata
    rw [h]
  · rfl

/-- Witness for C9 at the instance constructed with no languages argument. -/
theorem claim_C9_witness :
    (init none).save_metadata = none ∧ (init none).load_metadata none = init none :=
  ⟨(claim_C9 (init none)).1 rfl, (claim_C9 (init none)).2⟩

/-- C10: constructing with an empty collection of language codes behaves
identically to constructing with no languages argument: the states are equal,
`num_languages` and `languages` both return `none`, and `encode_example` never
raises the allow-list validation error. -/
theorem claim_C10 :
    init (some []) = init none
    ∧ (init (some [])).num_languages = none
    ∧ (init (some [])).languages = none
    ∧ ∀ m, isValidationError ((init (some [])).encode_example m) = false := by
  refine ⟨rfl, rfl, rfl, ?_⟩
  intro m
  rw [encode_example_languages_none (show (init (some [])).languages = none from rfl) m]
  exact isValidationError_encodeTuples m

end TranslationVariableLanguages

theorem translationTuples_fst_mem {m : List (String × TransValue)}
    {p : String × String} (hp : p ∈ translationTuples m) :
    p.1 ∈ m.map Prod.fst := by
  induction m with
  | nil => cases hp
  | cons hd rest ih =>
    obtain ⟨l, w⟩ := hd
    cases w with
    | single t =>
      rcases List.mem_cons.mp hp with heq | hp2
      · rw [heq, List.map_cons]
        exact List.mem_cons_self _ _
      · rw [List.map_cons]
        exact List.mem_cons_of_mem _ (ih hp2)
    | multi ts =>
      rcases List.mem_append.mp hp with hp2 | hp2
      · obtain ⟨u, hu, heq⟩ := List.mem_map.mp hp2
        rw [← heq, List.map_cons]
        exact List.mem_cons_self _ _
      · rw [List.map_cons]
        exact List.mem_cons_of_mem _ (ih hp2)

theorem filter_tuples_not_mem {rest : List (String × TransValue)} {k : String}
    (hk : k ∉ rest.map Prod.fst) :
    (translationTuples rest).filter (fun p => decide (p.1 = k)) = [] := by
  rw [List.filter_eq_nil_iff]
  intro p hp
  simp only [decide_eq_true_eq]
  intro hpk
  exact hk (hpk ▸ translationTuples_fst_mem hp)

theorem filter_tuples_of_mem (m : List (String × TransValue)) :
    ∀ (k : String) (v : TransValue),
      (m.map Prod.fst).Nodup → (k, v) ∈ m →
        (translationTuples m).filter (fun p => decide (p.1 = k))
          = expectedPairs k v := by
  induction m with
  | nil =>
    intro k v _ hmem
    cases hmem
  | cons hd rest ih =>
    intro k v hnd hmem
    obtain ⟨l, w⟩ := hd
    rw [List.map_cons, List.nodup_cons] at hnd
    rcases List.mem_cons.mp hmem with heq | hmem2
    · cases heq
      have hrest0 : (translationTuples rest).filter (fun p => decide (p.1 = k)) = [] :=
        filter_tuples_not_mem hnd.1
      cases v with
      | single t =>
        show ((k, t) :: translationTuples rest).filter (fun p => decide (p.1 = k)) = [(k, t)]

        rw [List.filter_cons_of_pos (by simp), hrest0]
      | multi ts =>
        show (ts.map (fun u => (k, u)) ++ translationTuples rest).filter
            (fun p => decide (p.1 = k)) = ts.map (fun u => (k, u))
        rw [List.filter_append, hrest0, List.append_nil, List.filter_eq_self]
        intro a ha
        obtain ⟨u, hu, heq⟩ := List.mem_map.mp ha
        rw [← heq]
        simp
    · have hkrest : k ∈ rest.map Prod.fst := List.mem_map.mpr ⟨(k, v), hmem2, rfl⟩
      have hlk : l ≠ k := fun h => hnd.1 (h ▸ hkrest)
      have hstep : (translationTuples ((l, w) :: rest)).filter (fun p => decide (p.1 = k))
          = (translationTuples rest).filter (fun p => decide (p.1 = k)) := by
        cases w with
        | single t =>
          show ((l, t) :: translationTuples rest).filter (fun p => decide (p.1 = k)) = _
          rw [List.filter_cons_of_neg (by simp [hlk])]
        | multi ts =>
          show (ts.map (fun u => (l, u)) ++ translationTuples rest).filter
              (fun p => decide (p.1 = k)) = _
          rw [List.filter_append, List.filter_eq_nil_iff.mpr ?_, List.nil_append]
          intro a ha
          obtain ⟨u, hu, heq⟩ := List.mem_map.mp ha
          rw [← heq]
          simp [hlk]
      rw [hstep]
      exact ih k v hnd.2 hmem2

/-- C6: in the flattening step of `encode_example`, each key of the input
mapping with a single-string value produces exactly one `(language,
translation)` pair, and each key with a collection of N strings produces
exactly N pairs, all sharing that language code. -/
theorem claim_C6 (m : List (String × TransValue)) (k : String) (v : TransValue)
    (hnd : (m.map Prod.fst).Nodup) (hmem : (k, v) ∈ m) :
    (translationTuples m).filter (fun p => decide (p.1 = k)) = expectedPairs k v
    ∧ ((translationTuples m).filter (fun p => decide (p.1 = k))).length = pairCount v := by
  have hmain := filter_tuples_of_mem m k v hnd hmem
  refine ⟨hmain, ?_⟩
  rw [hmain]
  cases v <;> simp [expectedPairs, pairCount]

/-- Witness for C6 at the concrete mapping of the spec scenario: the key `fr`
carries two translations and contributes exactly its two pairs. -/
theorem claim_C6_witness :
    (translationTuples [("en", .single "the cat"), ("fr", .multi ["le chat", "la chatte"])]).filter
        (fun p => decide (p.1 = "fr"))
      = [("fr", "le chat"), ("fr", "la chatte")]
    ∧ ((translationTuples [("en", .single "the cat"),
        ("fr", .multi ["le chat", "la chatte"])]).filter
        (fun p => decide (p.1 = "fr"))).length = 2 :=
  claim_C6 [("en", .single "the cat"), ("fr", .multi ["le chat", "la chatte"])]
    "fr" (.multi ["le chat", "la chatte"]) (by decide) (by decide)

/-- C7: for every construction list (any order, duplicates allowed), the
`languages` accessor of a fixed-language `Translation` returns the distinct
configured codes in ascending sorted order: its result is sorted, has no
duplicates, and contains exactly the codes of the construction list. -/
theorem claim_C7 (L : List String) :
    List.Sorted strLe ((Translation.init L).languages)
    ∧ ((Translation.init L).languages).Nodup
    ∧ (∀ x, x ∈ (Translation.init L).languages ↔ x ∈ L) := by
  refine ⟨sortStr_sorted _, sortStr_nodup (List.nodup_dedup L), ?_⟩
  intro x
  show x ∈ sortStr L.dedup ↔ x ∈ L
  rw [mem_sortStr, List.mem_dedup]

/-- C8: `Translation.load_metadata` fails, propagating the I/O error with no
graceful skip, whenever the languages metadata file is missing at the derived
path. -/
theorem claim_C8 (t : Translation) : t.load_metadata none = .error .notFound := rfl

/-- C5 counterexample: the invariant "languages equal the sub-field keys" is
not maintained at all times: loading a metadata file whose language set
differs from the constructed one overwrites `self._languages` without
rebuilding the per-language sub-fields, leaving a state whose language set is
`{fr}` while its sub-field keys are `{en}`. -/
theorem claim_C5_counterexample :
    Translation.load_metadata (Translation.init ["en"])
        (some (_write_languages_to_file ["fr"]))
      = .ok ⟨["fr"], ["en"]⟩
    ∧ ¬ Translation.invariant ⟨["fr"], ["en"]⟩ := by
  refine ⟨by decide, ?_⟩
  intro h
  have h2 := (h "fr").mp (by decide)
  simp at h2

/-- C5 amended: the invariant "the set of languages equals the set of
per-language sub-field keys" holds after construction and is preserved by
`save_metadata`, but `load_metadata` overwrites the language set with the
file's content while leaving the sub-field keys unchanged, so after a
successful load the invariant holds exactly when the loaded set equals the
sub-field keys (as is the case for a file written by `save_metadata` of an
instance with the same keys). -/
theorem claim_C5 :
    (∀ L : List String, (Translation.init L).invariant)
    ∧ (∀ t : Translation, (t.save_metadata).2 = t)
    ∧ (∀ (t : Translation) (c : List Char) (t2 : Translation),
        t.load_metadata (some c) = .ok t2 →
          t2.subKeys = t.subKeys
          ∧ t2._languages = _load_languages_from_file c
          ∧ (t2.invariant ↔ setEqStr (_load_languages_from_file c) t.subKeys)) := by
  refine ⟨?_, ?_, ?_⟩
  · intro L x
    exact Iff.rfl
  · intro t
    rfl
  · intro t c t2 h
    have h2 : Except.ok ({ t with _languages := _load_languages_from_file c })
        = (Except.ok t2 : Except IOErr Translation) := h
    injection h2 with h3
    rw [← h3]
    exact ⟨rfl, rfl, Iff.rfl⟩

/-- Witness for C5: a load that restores the set written for the same keys
satisfies the amended statement at a concrete instance. -/
theorem claim_C5_witness :
    (Translation.init ["en"]).invariant
    ∧ Translation.load_metadata (Translation.init ["en"])
        (some (_write_languages_to_file ["en"]))
      = .ok ⟨["en"], ["en"]⟩
    ∧ (⟨["en"], ["en"]⟩ : Translation).subKeys = (Translation.init ["en"]).subKeys := by
  refine ⟨claim_C5.1 ["en"], by decide, ?_⟩
  exact (claim_C5.2.2 (Translation.init ["en"]) (_write_languages_to_file ["en"])
    ⟨["en"], ["en"]⟩ (by decide)).1

theorem splitNL_append {l : List Char} (rest : List Char) (h : ('\n') ∉ l) :
    splitNL (l ++ '\n' :: rest) = l :: splitNL rest := by
  induction l with
  | nil => rfl
  | cons c cs ih =>
    have hc : c ≠ '\n' := by
      intro hh
      subst hh
      exact h (List.mem_cons_self _ _)
    have hcs : ('\n') ∉ cs := fun hh => h (List.mem_cons_of_mem c hh)
    simp only [List.cons_append, splitNL, if_neg hc]
    rw [show cs.append ('\n' :: rest) = cs ++ '\n' :: rest from rfl, ih hcs]

theorem joinNL_splitNL : ∀ L : List (List Char), L ≠ [] → (∀ l ∈ L, ('\n') ∉ l) →
    splitNL (joinNL L ++ ['\n']) = L ++ [[]] := by
  intro L
  induction L with
  | nil =>
    intro h _
    cases h rfl
  | cons x xs ih =>
    intro _ hmem
    cases xs with
    | nil =>
      show splitNL (x ++ '\n' :: []) = [x, []]
      rw [splitNL_append [] (hmem x (List.mem_cons_self _ _))]
      rfl
    | cons y ys =>
      show splitNL ((x ++ '\n' :: joinNL (y :: ys)) ++ ['\n']) = (x :: y :: ys) ++ [[]]
      have hassoc : (x ++ '\n' :: joinNL (y :: ys)) ++ ['\n']
          = x ++ '\n' :: (joinNL (y :: ys) ++ ['\n']) := by
        simp
      rw [hassoc, splitNL_append _ (hmem x (List.mem_cons_self _ _)),
        ih (by simp) (fun l hl => hmem l (List.mem_cons_of_mem x hl))]
      rfl

/-- C4 counterexample: the write/read round-trip is not the identity for every
language set: the set containing the empty-string code is written as a single
newline, which reads back as the empty set. -/
theorem claim_C4_counterexample :
    ("" ∈ ([""] : List String))
    ∧ ("" ∉ _load_languages_from_file (_write_languages_to_file [""])) := by
  refine ⟨by decide, by decide⟩

/-- C4 amended: for every language set whose codes are non-empty, invariant
under strip, and free of newlines, writing the set with
`_write_languages_to_file` and reading the file back with
`_load_languages_from_file` returns a set equal to the original
(membership-equal, independent of enumeration order). -/
theorem claim_C4 (L : List String)
    (hL : ∀ l ∈ L, l ≠ "" ∧ stripChars l.data = l.data ∧ ('\n') ∉ l.data) :
    ∀ x, x ∈ _load_languages_from_file (_write_languages_to_file L) ↔ x ∈ L := by
  intro x
  by_cases hnil : L = []
  · subst hnil
    rw [show _load_languages_from_file (_write_languages_to_file []) = [] from by decide]
  · have hsplit : splitNL (joinNL (L.map String.data) ++ ['\n'])
        = L.map String.data ++ [[]] := by
      refine joinNL_splitNL (L.map String.data) (by simpa using hnil) ?_
      intro l hl
      obtain ⟨s, hs, heq⟩ := List.mem_map.mp hl
      rw [← heq]
      exact (hL s hs).2.2
    unfold _load_languages_from_file _write_languages_to_file
    rw [hsplit, List.map_append, List.filter_append, List.map_map]
    have h2 : (([[]] : List (List Char)).map (fun t => String.mk (stripChars t))).filter
        (fun s => decide (s ≠ "")) = [] := by decide
    have h3 : L.map ((fun t => String.mk (stripChars t)) ∘ String.data) = L := by
      have hcong : ∀ a ∈ L, ((fun t => String.mk (stripChars t)) ∘ String.data) a = id a := by
        intro a ha
        show String.mk (stripChars a.data) = a
        rw [(hL a ha).2.1]
      rw [List.map_congr_left hcong, List.map_id]
    have h4 : L.filter (fun s => decide (s ≠ "")) = L := by
      rw [List.filter_eq_self]
      intro a ha
      simpa using (hL a ha).1
    rw [h2, h3, h4, List.append_nil, List.mem_dedup]

/-- Witness for C4 at a concrete two-element set. -/
theorem claim_C4_witness :
    "fr" ∈ _load_languages_from_file (_write_languages_to_file ["fr", "en"]) :=
  (claim_C4 ["fr", "en"] (by decide) "fr").mpr (by decide)
